import Mathlib

/-
Shallow embedding of the raster-to-tile rendering engine of
data_pipeline/processing/common/generate_tiles.py and
data_pipeline/processing/common/upsample_zoom11_to_12.py.

Machine floating-point samples are modelled as exact rationals plus an
explicit NaN constructor; every numpy array operation used by the code is
pointwise, so arrays are modelled as functions on `Fin 256`.  The one claim
that is genuinely about float32 rounding (the interpolated alpha channel)
gets an explicit round-to-nearest-even model `fl32` below.
-/

namespace TileGen

/-- Value of one raster sample: NaN or a finite value (exact rational). -/
inductive Px where
  | nan : Px
  | val (q : ℚ) : Px
deriving DecidableEq, Repr

/-- Model of `np.where(np.isnan(data), 0.0, data)` at one sample. -/
def Px.denan : Px → ℚ
  | .nan => 0
  | .val q => q

/-- Model of `np.isnan` at one sample. -/
def Px.isnan : Px → Bool
  | .nan => true
  | .val _ => false

/-- A 256x256 tile window of raster samples (`data` in `generate_tile`). -/
def Grid256 : Type := Fin 256 → Fin 256 → Px

/-- A 256x256 grid of already de-NaN-ed float values. -/
def QGrid256 : Type := Fin 256 → Fin 256 → ℚ

/-- Model of the shifted array `up` (`up[1:, :] = source[:-1, :]`, first row 0):
the sample one row above, or 0 at the top edge. -/
def upNbr (s : QGrid256) (i j : Fin 256) : ℚ :=
  if h : 1 ≤ i.val then s ⟨i.val - 1, by omega⟩ j else 0

/-- Model of the shifted array `down` (`down[:-1, :] = source[1:, :]`): the
sample one row below, or 0 at the bottom edge. -/
def downNbr (s : QGrid256) (i j : Fin 256) : ℚ :=
  if h : i.val + 1 < 256 then s ⟨i.val + 1, h⟩ j else 0

/-- Model of the shifted array `left` (`left[:, 1:] = source[:, :-1]`): the
sample one column to the left, or 0 at the left edge. -/
def leftNbr (s : QGrid256) (i j : Fin 256) : ℚ :=
  if h : 1 ≤ j.val then s i ⟨j.val - 1, by omega⟩ else 0

/-- Model of the shifted array `right` (`right[:, :-1] = source[:, 1:]`): the
sample one column to the right, or 0 at the right edge. -/
def rightNbr (s : QGrid256) (i j : Fin 256) : ℚ :=
  if h : j.val + 1 < 256 then s i ⟨j.val + 1, h⟩ else 0

/-- Pointwise model of `fill_missing_with_neighbor_mean`: NaN is first
replaced by 0 (`source`); a pixel equal to 0 is replaced by the first
non-zero neighbour in the fixed priority order up, down, left, right
(all neighbours are read from the original `source`, the masks are applied
sequentially so an earlier direction wins); a 0 pixel with no non-zero
neighbour stays 0.  The early return `if not np.any(source == 0)` returns
`source` unchanged, which coincides with this pointwise description. -/
def fill_missing_with_neighbor_mean (data : Grid256) : QGrid256 :=
  fun i j =>
    let s : QGrid256 := fun a b => (data a b).denan
    if s i j ≠ 0 then s i j
    else if upNbr s i j ≠ 0 then upNbr s i j
    else if downNbr s i j ≠ 0 then downNbr s i j
    else if leftNbr s i j ≠ 0 then leftNbr s i j
    else if rightNbr s i j ≠ 0 then rightNbr s i j
    else 0

/-- Re-wrap a filled (NaN-free) grid as raster samples, as happens when the
result of `fill_missing_with_neighbor_mean` is fed to the colormap. -/
def toPx (s : QGrid256) : Grid256 := fun i j => Px.val (s i j)

/-- Fixed alpha for opaque tile pixels (`DEFAULT_TILE_ALPHA = 200`). -/
def DEFAULT_TILE_ALPHA : ℕ := 200

/-- Value of one hex digit, upper or lower case, as accepted by `int(_, 16)`. -/
def hexDigit (c : Char) : Option ℕ :=
  if '0' ≤ c ∧ c ≤ '9' then some (c.toNat - '0'.toNat)
  else if 'a' ≤ c ∧ c ≤ 'f' then some (c.toNat - 'a'.toNat + 10)
  else if 'A' ≤ c ∧ c ≤ 'F' then some (c.toNat - 'A'.toNat + 10)
  else none

/-- Value of a two-hex-digit byte such as `int(color[0:2], 16)`. -/
def hexPair (a b : Char) : Option ℕ := do
  let x ← hexDigit a
  let y ← hexDigit b
  pure (16 * x + y)

/-- Model of `hex_to_rgba`: strip leading `#`, expand a 3-digit shorthand by
doubling each character, then parse three bytes; `none` models the
`ValueError` raised on a malformed colour. -/
def hex_to_rgba (hex_color : String) (alpha : ℕ) : Option (List ℕ) :=
  let color := hex_color.toList.dropWhile (fun c => c = '#')
  let color := if color.length = 3 then color.flatMap (fun ch => [ch, ch]) else color
  match color with
  | [a, b, c, d, e, f] => do
      let r ← hexPair a b
      let g ← hexPair c d
      let bl ← hexPair e f
      pure [r, g, bl, alpha]
  | _ => none

/-- Colour of one breakpoint as built at module load: `hex_to_rgba` with the
default alpha (the module would fail to import on a parse error, so the
`Option` is discharged with a junk default that is never reached). -/
def hexC (s : String) : List ℕ := (hex_to_rgba s DEFAULT_TILE_ALPHA).getD []

/-- Model of the module-level `DEFAULT_LAYER_STYLES` table:
per layer, its colour breaks and its colour list. -/
def DEFAULT_LAYER_STYLES (layer : String) : Option (List ℚ × List (List ℕ)) :=
  if layer = "pm25" then
    some ([0, 12, 35, 55, 150],
      [hexC "#00ff00", hexC "#87ff00", hexC "#ffff00", hexC "#ff6600", hexC "#ff0000"])
  else if layer = "precipitation" then
    some ([0, 1/2, 2, 10, 50],
      [hexC "#ffffff", hexC "#87ceeb", hexC "#4169e1", hexC "#0000ff", hexC "#00008b"])
  else if layer = "uv" then
    some ([0, 3, 6, 8, 11],
      [hexC "#289500", hexC "#f7e400", hexC "#f85900", hexC "#d8001d", hexC "#6b49c8"])
  else if layer = "humidity" then
    some ([0, 30, 50, 70, 90],
      [hexC "#8B4513", hexC "#DAA520", hexC "#FFD700", hexC "#87CEEB", hexC "#4169E1"])
  else if layer = "temperature" then
    some ([0, 10, 20, 30, 40],
      [hexC "#0000ff", hexC "#87ceeb", hexC "#ffff00", hexC "#ff6600", hexC "#ff0000"])
  else none

/-- Colour breaks of the default pm25 style. -/
def pm25_color_breaks : List ℚ := ((DEFAULT_LAYER_STYLES "pm25").getD ([], [])).1

/-- Colours of the default pm25 style. -/
def pm25_colors : List (List ℕ) := ((DEFAULT_LAYER_STYLES "pm25").getD ([], [])).2

/-- Truncating conversion of one channel to `uint8` (`astype(np.uint8)`
truncates toward zero; every channel value produced here is nonnegative). -/
def npUint8 (q : ℚ) : ℕ := (if 0 ≤ q then ⌊q⌋ else -⌊-q⌋).toNat % 256

/-- One interpolated channel: `(1 - t) * start + t * end` truncated to
`uint8`, with the arithmetic taken exact (the float32 version of the alpha
channel is modelled separately by `alpha_interp_f32`). -/
def interpChannel (t : ℚ) (cs ce : ℕ) : ℕ :=
  npUint8 ((1 - t) * (cs : ℚ) + t * (ce : ℚ))

/-- Sequential pass of the segment loop `for i in range(len(color_breaks)-1)`
of `apply_pm25_colormap`, evaluated at one valid sample `d`: each segment
`[lower, upper)` containing `d` overwrites the accumulated pixel with the
interpolated colour (or with the start colour if the segment is degenerate);
the interpolation factor is clipped to `[0, 1]` as in `np.clip`. -/
def segLoop (d : ℚ) : List ℚ → List (List ℕ) → List ℕ → List ℕ
  | b0 :: b1 :: bs, c0 :: c1 :: cs, acc =>
      let acc' :=
        if b0 ≤ d ∧ d < b1 then
          if 0 < b1 - b0 then
            let t := min (max ((d - b0) / (b1 - b0)) 0) 1
            List.zipWith (fun s e => interpChannel t s e) c0 c1
          else c0
        else acc
      segLoop d (b1 :: bs) (c1 :: cs) acc'
  | _, _, acc => acc

/-- Model of `apply_pm25_colormap` at one sample: a NaN sample is excluded
from every mask and keeps the transparent background `[0,0,0,0]`; a valid
sample runs the segment loop and is finally overwritten with the last colour
when it is at or beyond the last break (`max_mask`). -/
def colormap_value (color_breaks : List ℚ) (colors : List (List ℕ)) (x : Px) : List ℕ :=
  match x with
  | .nan => [0, 0, 0, 0]
  | .val d =>
      let base := segLoop d color_breaks colors [0, 0, 0, 0]
      match color_breaks.getLast? with
      | some lastBreak => if lastBreak ≤ d then colors.getLastD [0, 0, 0, 0] else base
      | none => base

/-- Model of `apply_pm25_colormap` on a whole tile (pointwise). -/
def apply_pm25_colormap (color_breaks : List ℚ) (colors : List (List ℕ))
    (data : Grid256) : Fin 256 → Fin 256 → List ℕ :=
  fun i j => colormap_value color_breaks colors (data i j)

/-- Alpha channel of an RGBA pixel (`rgba[..., 3]`). -/
def alphaOf (c : List ℕ) : ℕ := c.getD 3 0

/-- Number of non-NaN samples of an extracted tile
(`np.count_nonzero(~np.isnan(data))`): zeros DO count as valid here. -/
def count_valid (data : Grid256) : ℕ :=
  (Finset.univ.filter (fun p : Fin 256 × Fin 256 => (data p.1 p.2).isnan = false)).card

/-- Model of `valid_ratio = count_nonzero(valid_mask) / data.size` for a
256x256 tile. -/
def valid_ratio (data : Grid256) : ℚ := (count_valid data : ℚ) / 65536

/-- Number of samples that are neither NaN nor zero.  This is the notion of
"originally non-missing" used by the spec (a pixel is missing when it is
zero or NaN); the code's `valid_ratio` uses `count_valid` instead. -/
def count_nonzero_valid (data : Grid256) : ℕ :=
  (Finset.univ.filter
    (fun p : Fin 256 × Fin 256 =>
      (data p.1 p.2).isnan = false ∧ (data p.1 p.2).denan ≠ 0)).card

/-- Coverage fraction in the spec's sense: non-missing means non-zero and
non-NaN. -/
def spec_valid_ratio (data : Grid256) : ℚ := (count_nonzero_valid data : ℚ) / 65536

/-- Model of `generate_tile` from the extracted 256x256 window onward (the
rasterio extraction, the PNG encoding and the path are outside the
embedding; a `some` result is a written tile, `none` is a silent skip):
reject when `valid_ratio == 0.0 or valid_ratio < 0.02`; otherwise gap-fill,
colorize, and reject a fully transparent result. -/
def generate_tile (color_breaks : List ℚ) (colors : List (List ℕ))
    (data : Grid256) : Option (Fin 256 → Fin 256 → List ℕ) :=
  if valid_ratio data = 0 ∨ valid_ratio data < 2/100 then none
  else
    let filled := fill_missing_with_neighbor_mean data
    let rgba := apply_pm25_colormap color_breaks colors (toPx filled)
    if ∀ i j, alphaOf (rgba i j) = 0 then none
    else some rgba

/-- Scalar from the raster statistics pipeline (`float(np.nanmax(...))` can
be NaN or infinite as well as finite). -/
inductive PyFloat where
  | nan : PyFloat
  | inf : PyFloat
  | ninf : PyFloat
  | val (q : ℚ) : PyFloat
deriving DecidableEq, Repr

/-- Model of `np.isfinite` on a scalar. -/
def PyFloat.isfinite : PyFloat → Bool
  | .val _ => true
  | _ => false

/-- Round a rational to the nearest integer, ties to even — the rounding
used by Python's `round` builtin. -/
def rndHalfEven (q : ℚ) : ℤ :=
  let n := ⌊q⌋
  let f := q - n
  if f < 1/2 then n
  else if 1/2 < f then n + 1
  else if n % 2 = 0 then n else n + 1

/-- Model of `round(x, 2)`. -/
def round2 (q : ℚ) : ℚ := (rndHalfEven (q * 100) : ℚ) / 100

/-- Model of `np.linspace(start, stop, num)` (with `num ≥ 2` endpoints
included; this is the only regime the code uses). -/
def linspace (start stop : ℚ) (num : ℕ) : List ℚ :=
  (List.range num).map (fun i => start + (stop - start) * i / ((num : ℚ) - 1))

/-- The fixed "nice number" ladder of `_round_up_to_nice_value`. -/
def niceLadder : List ℚ :=
  [10, 20, 30, 40, 50, 60, 70, 80, 90, 100,
   120, 150, 200, 250, 300, 400, 500, 600, 700, 800, 900, 1000]

/-- Model of `int(math.log10(value))` for `value > 0` (truncation of the
base-10 logarithm toward zero; only reached for value > 1000, where it
equals the floor of the logarithm). -/
def intLog10 (q : ℚ) : ℤ := Int.log 10 q

/-- Model of `_round_up_to_nice_value`: nonpositive values become 1.0, a
value within the ladder is rounded up to the first ladder entry at or above
it, and larger values fall back to `ceil(value / order) * order` with
`order = 10 ** int(log10(value))`. -/
def round_up_to_nice_value (value : ℚ) : ℚ :=
  if value ≤ 0 then 1
  else
    match niceLadder.find? (fun t => value ≤ t) with
    | some t => t
    | none =>
        let order : ℚ := (10 : ℚ) ^ (intLog10 value)
        (⌈value / order⌉ : ℚ) * order

/-- Strictness pass of `_maybe_prepare_dynamic_thresholds`: walk the list
left to right and bump any entry not above its (already fixed) predecessor
to predecessor + 0.01. -/
def bumpGo (prev : ℚ) : List ℚ → List ℚ
  | [] => []
  | x :: xs =>
      let x' := if x ≤ prev then prev + 1/100 else x
      x' :: bumpGo x' xs

/-- Model of the `for i in range(1, len(dynamic_breaks))` strictness loop. -/
def bump_increasing : List ℚ → List ℚ
  | [] => []
  | b :: bs => b :: bumpGo b bs

/-- Model of `_maybe_prepare_dynamic_thresholds`.  Arguments mirror the
attributes it reads; the result is the pair (new `color_breaks`, new
`dynamic_thresholds`).  The Python stores `dynamic_breaks` and then bumps
the same list object in place, so both results carry the bumped list. -/
def maybe_prepare_dynamic_thresholds (layer_name : String)
    (use_legacy_thresholds : Bool) (thresholds_override : Option (List ℚ))
    (data_min data_max : Option PyFloat) (num_classes : ℕ)
    (color_breaks : List ℚ) : List ℚ × Option (List ℚ) :=
  if ¬ (layer_name = "pm25" ∨ layer_name = "precipitation") then (color_breaks, none)
  else if use_legacy_thresholds then (color_breaks, none)
  else
    match thresholds_override with
    | some o => (o, some o)
    | none =>
        if data_max = none ∨ data_min = none then (color_breaks, none)
        else if num_classes < 2 then (color_breaks, none)
        else
          let max_val0 : ℚ :=
            match data_max with
            | some (.val q) => if q ≤ 0 then 1 else q
            | _ => 1
          let max_val1 : ℚ := if max_val0 ≤ 0 then 1 else max_val0
          let max_val := round_up_to_nice_value max_val1
          let dynamic_breaks :=
            bump_increasing ((linspace 0 max_val num_classes).map round2)
          (dynamic_breaks, some dynamic_breaks)

/-- Calibration formula as the spec describes it, for a finite `data_max`:
round `max(data_max, 1.0)` up to the nice ladder, linearly space
`num_classes` breakpoints from 0 to that ceiling, round to 2 decimals, and
bump any non-increasing step by +0.01. -/
def spec_dynamic_thresholds (data_max : ℚ) (num_classes : ℕ) : List ℚ :=
  bump_increasing
    ((linspace 0 (round_up_to_nice_value (max data_max 1)) num_classes).map round2)

/-- Floor of the base-2 logarithm of a natural number, by structural
recursion on an explicit fuel so that the kernel can evaluate it. -/
def log2fuel : ℕ → ℕ → ℕ
  | 0, _ => 0
  | fuel + 1, n => if 2 ≤ n then log2fuel fuel (n / 2) + 1 else 0

/-- Ceiling of the base-2 logarithm of a rational at least 1, by structural
recursion on an explicit fuel. -/
def clog2fuel : ℕ → ℚ → ℕ
  | 0, _ => 0
  | fuel + 1, r => if r ≤ 1 then 0 else clog2fuel fuel (r / 2) + 1

/-- Floor of the base-2 logarithm of a positive rational (the binary32
exponent of a value in the normal range). -/
def qexp2 (q : ℚ) : ℤ :=
  if 1 ≤ q then (log2fuel ⌊q⌋.toNat ⌊q⌋.toNat : ℤ)
  else -(clog2fuel (q⁻¹).num.natAbs q⁻¹ : ℤ)

/-- Round-to-nearest-even at a 24-bit significand for a positive rational:
the IEEE-754 binary32 rounding of a positive real in the normal range. -/
def fl32pos (q : ℚ) : ℚ :=
  let e : ℤ := qexp2 q
  (rndHalfEven (q * 2 ^ (23 - e)) : ℚ) * 2 ^ (e - 23)

/-- IEEE binary32 rounding of a rational (sign-symmetric; overflow and the
reduced precision of subnormals are not modelled — no value in the alpha
computation reaches either regime, and genuine float32 subnormals are fixed
points of this map). -/
def fl32 (q : ℚ) : ℚ :=
  if q = 0 then 0
  else if 0 < q then fl32pos q
  else -fl32pos (-q)

/-- The float32 evaluation of the alpha channel of an interpolated pixel
when both segment endpoint colours carry alpha 200:
`((1 - t) * 200 + t * 200).astype(np.uint8)` with every numpy operation
rounding to binary32. -/
def alpha_interp_f32 (t : ℚ) : ℕ :=
  npUint8 (fl32 (fl32 (fl32 (1 - t) * 200) + fl32 (t * 200)))

/-- Truncation toward zero, as Python's `int()` applied to a float. -/
noncomputable def pyInt (r : ℝ) : ℤ := if 0 ≤ r then ⌊r⌋ else -⌊-r⌋

/-- Model of `deg2num`: slippy-map forward projection.  Python's
`math.radians`, `math.tan`, `math.asinh` are modelled by the exact real
functions; `int(...)` truncates toward zero. -/
noncomputable def deg2num (lat_deg lon_deg : ℝ) (zoom : ℕ) : ℤ × ℤ :=
  let lat_rad := lat_deg * (Real.pi / 180)
  let n : ℝ := 2 ^ zoom
  (pyInt ((lon_deg + 180) / 360 * n),
   pyInt ((1 - Real.arsinh (Real.tan lat_rad) / Real.pi) / 2 * n))

/-- Model of `num2deg`: northwest corner of a tile, returned as
`(lat_deg, lon_deg)`. -/
noncomputable def num2deg (xtile ytile : ℤ) (zoom : ℕ) : ℝ × ℝ :=
  let n : ℝ := 2 ^ zoom
  let lon_deg := (xtile : ℝ) / n * 360 - 180
  let lat_rad := Real.arctan (Real.sinh (Real.pi * (1 - 2 * (ytile : ℝ) / n)))
  (lat_rad * (180 / Real.pi), lon_deg)

/-- Path of one written tile, `{output_dir}/{layer}/{zoom}/{x}/{y}.png`. -/
def tile_path (output_dir layer_name : String) (zoom : ℕ) (x y : ℤ) : String :=
  output_dir ++ "/" ++ layer_name ++ "/" ++ toString zoom ++ "/" ++
    toString x ++ "/" ++ toString y ++ ".png"

/-- Path of the per-layer metadata file written by `_write_metadata`. -/
def metadata_path (output_dir layer_name : String) : String :=
  output_dir ++ "/" ++ layer_name ++ "/metadata.json"

/-- Inclusive integer range `[a, a+1, ..., b]` (`range(a, b + 1)`). -/
def intRange (a b : ℤ) : List ℤ :=
  (List.range (b - a + 1).toNat).map (fun i => a + (i : ℤ))

/-- One tile task of the worker pool: extraction (abstracted as a function
from the tile index to the optional 256x256 window — rasterio windowing,
reads and resampling are I/O) followed by `generate_tile`; the result is
the written path, if any. -/
def tile_task (extract : ℕ → ℤ → ℤ → Option Grid256) (color_breaks : List ℚ)
    (colors : List (List ℕ)) (output_dir layer_name : String)
    (zoom : ℕ) (x y : ℤ) : Option String :=
  match extract zoom x y with
  | none => none
  | some data =>
      (generate_tile color_breaks colors data).map
        (fun _ => tile_path output_dir layer_name zoom x y)

/-- Model of `generate_tiles_for_zoom`: compute the covering tile rectangle
from the raster bounds (`west, south, east, north`), expand by a one-tile
margin, clamp to `[0, 2^zoom - 1]`, run every tile task, and return the
number of written tiles together with their paths. -/
noncomputable def generate_tiles_for_zoom (bounds : ℝ × ℝ × ℝ × ℝ)
    (extract : ℕ → ℤ → ℤ → Option Grid256) (color_breaks : List ℚ)
    (colors : List (List ℕ)) (output_dir layer_name : String)
    (zoom : ℕ) : ℕ × List String :=
  let w := bounds.1
  let s := bounds.2.1
  let e := bounds.2.2.1
  let n := bounds.2.2.2
  let sw := deg2num s w zoom
  let ne := deg2num n e zoom
  let x_min := max 0 (sw.1 - 1)
  let y_min := max 0 (ne.2 - 1)
  let x_max := min (2 ^ zoom - 1) (ne.1 + 1)
  let y_max := min (2 ^ zoom - 1) (sw.2 + 1)
  let results :=
    (intRange x_min x_max).flatMap (fun x =>
      (intRange y_min y_max).map (fun y =>
        tile_task extract color_breaks colors output_dir layer_name zoom x y))
  let written := results.filterMap id
  (written.length, written)

/-- Model of `generate_all_tiles`: a missing source file raises (an
`Except.error`); otherwise the raster statistics (`data_min`, `data_max`,
passed in as the result of the abstracted raster read) feed the dynamic
threshold preparation, every configured zoom level runs sequentially, and
`_write_metadata` unconditionally appends `metadata.json` before the total
tile count is returned together with every path written by the run. -/
noncomputable def generate_all_tiles (src_exists : Bool) (bounds : ℝ × ℝ × ℝ × ℝ)
    (extract : ℕ → ℤ → ℤ → Option Grid256) (data_min data_max : PyFloat)
    (layer_name : String) (use_legacy_thresholds : Bool)
    (thresholds_override : Option (List ℚ)) (colors : List (List ℕ))
    (color_breaks : List ℚ) (zoom_levels : List ℕ)
    (output_dir : String) : Except String (ℕ × List String) :=
  if ¬ src_exists then Except.error "FileNotFoundError"
  else
    let prepared := maybe_prepare_dynamic_thresholds layer_name
      use_legacy_thresholds thresholds_override (some data_min) (some data_max)
      colors.length color_breaks
    let perZoom := zoom_levels.map (fun zoom =>
      generate_tiles_for_zoom bounds extract prepared.1 colors
        output_dir layer_name zoom)
    let total := (perZoom.map (fun r => r.1)).sum
    let tileFiles := (perZoom.map (fun r => r.2)).flatten
    Except.ok (total, tileFiles ++ [metadata_path output_dir layer_name])

/-- Write list of one `_upsample_step`: for every directory entry whose PNG
decodes (an undecodable file is skipped), the four children
`(2x+dx, 2y+dy)` for `dx, dy ∈ {0, 1}` receive the parent's image
unmodified, in the loop order `(0,0), (0,1), (1,0), (1,1)`. -/
def upsample_writes {α : Type} : List ((ℤ × ℤ) × Option α) → List ((ℤ × ℤ) × α)
  | [] => []
  | (_, none) :: rest => upsample_writes rest
  | ((x, y), some img) :: rest =>
      ((2 * x, 2 * y), img) :: ((2 * x, 2 * y + 1), img) ::
      ((2 * x + 1, 2 * y), img) :: ((2 * x + 1, 2 * y + 1), img) ::
      upsample_writes rest

/-- Apply a list of `img.save` calls on top of the existing destination
zoom directory, later writes overwriting earlier ones. -/
def apply_writes {α : Type} (dst : ℤ → ℤ → Option α) :
    List ((ℤ × ℤ) × α) → ℤ → ℤ → Option α
  | [], cx, cy => dst cx cy
  | w :: ws, cx, cy =>
      apply_writes (fun a b => if a = w.1.1 ∧ b = w.1.2 then some w.2 else dst a b) ws cx cy

/-- Model of `_upsample_step`: the source zoom directory is its (finite)
listing of entries `((x, y), decoded image or none)`; the result is the
destination zoom directory after all writes. -/
def upsample_step {α : Type} (entries : List ((ℤ × ℤ) × Option α))
    (dst : ℤ → ℤ → Option α) : ℤ → ℤ → Option α :=
  apply_writes dst (upsample_writes entries)

/-- Predicate from the spec's invariant: pixel `(i, j)` has no underlying
valid data even after gap-filling — it is zero-or-NaN and each of its four
neighbours (with the code's edge conventions) is zero-or-NaN as well. -/
def no_valid_after_fill (data : Grid256) (i j : Fin 256) : Prop :=
  (data i j).denan = 0 ∧
  upNbr (fun a b => (data a b).denan) i j = 0 ∧
  downNbr (fun a b => (data a b).denan) i j = 0 ∧
  leftNbr (fun a b => (data a b).denan) i j = 0 ∧
  rightNbr (fun a b => (data a b).denan) i j = 0

/-- A 256x256 synthetic tile with every sample equal to 0 (0% non-zero
pixels, 100% non-NaN pixels). -/
def zeroTile : Grid256 := fun _ _ => Px.val 0

/-- A 256x256 tile whose only non-zero sample sits at the origin. -/
def spikeTile : Grid256 :=
  fun i j => if i.val = 0 ∧ j.val = 0 then Px.val 5 else Px.val 0

/-- A 256x256 tile with every sample equal to 5 (no missing pixel). -/
def constFive : Grid256 := fun _ _ => Px.val 5

/-- A 256x256 tile whose first three rows are NaN and the rest 5: pixel
`(1, 5)` is missing with all four neighbours missing, yet 98.8% of the
tile is non-NaN, so the tile passes the coverage gate and is written. -/
def nanRowsTile : Grid256 :=
  fun i _ => if i.val ≤ 2 then Px.nan else Px.val 5

/-- The float32 interpolation factor refuting the exact-alpha claim:
`t0 = 10737503 / 2^25 ≈ 0.3200025`, a binary32 value in `[0, 1]`. -/
def t0f32 : ℚ := 10737503 / 33554432

/-- Helper: the segment loop never touches a sample strictly below the head
break when the breaks increase along the list. -/
lemma segLoop_eq_of_lt_head (d : ℚ) :
    ∀ (bs : List ℚ) (b : ℚ) (cs : List (List ℕ)) (acc : List ℕ),
      d < b → List.Chain' (· < ·) (b :: bs) →
      segLoop d (b :: bs) cs acc = acc := by
  intro bs
  induction bs with
  | nil =>
      intro b cs acc _ _
      cases cs <;> simp [segLoop]
  | cons b1 bs ih =>
      intro b cs acc hd hch
      match cs with
      | [] => simp [segLoop]
      | [c0] => simp [segLoop]
      | c0 :: c1 :: cs' =>
          have hbb1 : b < b1 := (List.chain'_cons.mp hch).1
          have : ¬ (b ≤ d ∧ d < b1) := by
            intro h
            exact absurd hd (not_lt.mpr h.1)
          simp only [segLoop, if_neg this]
          exact ih b1 (c1 :: cs') acc (hd.trans hbb1) (List.chain'_cons.mp hch).2

/-- Helper: the head of a strictly increasing nonempty list is at most its
last element. -/
lemma chain_head_le_getLast :
    ∀ (bs : List ℚ) (b : ℚ), List.Chain' (· < ·) (b :: bs) →
      b ≤ (b :: bs).getLast (List.cons_ne_nil b bs) := by
  intro bs
  induction bs with
  | nil => intro b _; simp
  | cons b1 bs ih =>
      intro b hch
      have hbb1 : b < b1 := (List.chain'_cons.mp hch).1
      have h2 := ih b1 (List.chain'_cons.mp hch).2
      rw [List.getLast_cons (List.cons_ne_nil b1 bs)]
      exact le_of_lt (lt_of_lt_of_le hbb1 h2)

/-- C3 counterexample: the value -1 lies strictly below the first pm25
threshold (0), yet the colormap leaves the pixel fully transparent
`[0,0,0,0]`, not the first breakpoint's colour `[0,255,0,200]` that the
claim's clamped interpolation formula (t = 0) would produce. -/
theorem C3_cex :
    (-1 : ℚ) < pm25_color_breaks.headD 1 ∧
    colormap_value pm25_color_breaks pm25_colors (Px.val (-1)) = [0, 0, 0, 0] ∧
    colormap_value pm25_color_breaks pm25_colors (Px.val (-1)) ≠ pm25_colors.headD [] := by
  decide

/-- C3 (corrected): for every strictly increasing break list and every
value strictly below the first threshold, `apply_pm25_colormap` leaves the
pixel fully transparent `[0,0,0,0]` — there is no clamped interpolation
below the first segment. -/
theorem colormap_below_first_transparent (b : ℚ) (bs : List ℚ)
    (cs : List (List ℕ)) (d : ℚ)
    (hch : List.Chain' (· < ·) (b :: bs)) (hd : d < b) :
    colormap_value (b :: bs) cs (Px.val d) = [0, 0, 0, 0] := by
  have hbase := segLoop_eq_of_lt_head d bs b cs [0, 0, 0, 0] hd hch
  have hlast :
      (b :: bs).getLast? = some ((b :: bs).getLast (List.cons_ne_nil b bs)) :=
    List.getLast?_eq_getLast _ _
  have hle := chain_head_le_getLast bs b hch
  have hnot : ¬ (b :: bs).getLast (List.cons_ne_nil b bs) ≤ d := by
    intro h
    exact absurd (lt_of_lt_of_le hd (le_trans hle h)) (lt_irrefl d)
  simp only [colormap_value, hlast, if_neg hnot, hbase]

/-- Witness for C3's corrected theorem at the default pm25 ramp and the
concrete value -1. -/
theorem colormap_below_first_transparent_witness :
    colormap_value (0 :: [12, 35, 55, 150]) pm25_colors (Px.val (-1)) = [0, 0, 0, 0] :=
  colormap_below_first_transparent 0 [12, 35, 55, 150] pm25_colors (-1)
    (by norm_num [List.chain'_cons, List.chain'_singleton]) (by norm_num)

/-- C8 counterexample: the spec's colour pairing for the default pm25 ramp
(`#00ff00,#ffff00,#ff6600,#ff0000,#800080`) is not the table in the code:
the code's pm25 colours are `#00ff00,#87ff00,#ffff00,#ff6600,#ff0000`. -/
theorem C8_cex :
    pm25_color_breaks = [0, 12, 35, 55, 150] ∧
    pm25_colors ≠
      [hexC "#00ff00", hexC "#ffff00", hexC "#ff6600", hexC "#ff0000", hexC "#800080"] := by
  decide

/-- C8 (corrected): the default pm25 ramp pairs thresholds 0,12,35,55,150
low-to-high with exactly the colours #00ff00, #87ff00, #ffff00, #ff6600,
#ff0000 (each at alpha 200). -/
theorem pm25_default_style_spec :
    pm25_color_breaks = [0, 12, 35, 55, 150] ∧
    pm25_colors =
      [[0, 255, 0, 200], [135, 255, 0, 200], [255, 255, 0, 200],
       [255, 102, 0, 200], [255, 0, 0, 200]] := by
  decide

/-- Helper: on the all-zero tile every sample is non-NaN, so the code's
`valid_ratio` is 1. -/
lemma count_valid_zeroTile : count_valid zeroTile = 65536 := by
  have h : (Finset.univ.filter
      (fun p : Fin 256 × Fin 256 => (zeroTile p.1 p.2).isnan = false)) = Finset.univ :=
    Finset.filter_true_of_mem (fun p _ => rfl)
  unfold count_valid
  rw [h, Finset.card_univ, Fintype.card_prod, Fintype.card_fin]

unseal Rat.mul Rat.add Rat.sub Rat.inv Rat.ofScientific in
/-- C1 counterexample: the all-zero 256x256 tile has spec-valid-ratio 0
(zero non-missing pixels in the spec's zero-or-NaN sense), so by the claim
it must be rejected; the code writes it, because `valid_ratio` counts only
NaN as missing and the zero pixels are colorized with the first pm25
colour (alpha 200), so the image is not fully transparent. -/
theorem C1_cex :
    spec_valid_ratio zeroTile = 0 ∧
    generate_tile pm25_color_breaks pm25_colors zeroTile ≠ none := by
  constructor
  · unfold spec_valid_ratio count_nonzero_valid
    rw [Finset.filter_false_of_mem]
    · simp
    · intro p _
      simp [zeroTile, Px.denan]
  · unfold generate_tile
    rw [if_neg, if_neg]
    · simp
    · intro hall
      have h00 := hall 0 0
      revert h00
      decide
    · rw [valid_ratio, count_valid_zeroTile]
      norm_num

/-- C1 (corrected): from an extracted 256x256 window, `generate_tile`
rejects (returns none, writes nothing) iff the fraction of non-NaN pixels
is 0 or below 0.02 — zero pixels count as valid — or the colorized image is
fully transparent. -/
theorem generate_tile_none_iff (color_breaks : List ℚ) (colors : List (List ℕ))
    (data : Grid256) :
    generate_tile color_breaks colors data = none ↔
      (valid_ratio data = 0 ∨ valid_ratio data < 2/100) ∨
      (∀ i j, alphaOf (apply_pm25_colormap color_breaks colors
        (toPx (fill_missing_with_neighbor_mean data)) i j) = 0) := by
  unfold generate_tile
  by_cases h1 : valid_ratio data = 0 ∨ valid_ratio data < 2/100
  · simp [h1]
  · by_cases h2 : ∀ i j, alphaOf (apply_pm25_colormap color_breaks colors
      (toPx (fill_missing_with_neighbor_mean data)) i j) = 0
    · simp [h1, h2]
    · simp [h1, h2]

unseal Rat.mul Rat.add Rat.sub Rat.inv Rat.ofScientific in
/-- C5 counterexample: on the tile whose only non-zero sample is at the
origin, one filling pass reaches pixel (0,1) but not (0,2); a second pass
fills (0,2) from the newly filled (0,1), so filling twice differs from
filling once. -/
theorem C5_cex :
    fill_missing_with_neighbor_mean (toPx (fill_missing_with_neighbor_mean spikeTile)) ≠
      fill_missing_with_neighbor_mean spikeTile := by
  intro h
  exact absurd (congrFun (congrFun h 0) 2) (by decide)

/-- C5 (corrected): gap-filling is a single simultaneous pass and is NOT
idempotent in general; it is idempotent on any input whose once-filled
result has no zero pixel with a non-zero 4-neighbour (in particular on any
input with no missing pixel at all). -/
theorem fill_idempotent_of_stable (data : Grid256)
    (H : ∀ i j, fill_missing_with_neighbor_mean data i j = 0 →
      upNbr (fill_missing_with_neighbor_mean data) i j = 0 ∧
      downNbr (fill_missing_with_neighbor_mean data) i j = 0 ∧
      leftNbr (fill_missing_with_neighbor_mean data) i j = 0 ∧
      rightNbr (fill_missing_with_neighbor_mean data) i j = 0) :
    fill_missing_with_neighbor_mean (toPx (fill_missing_with_neighbor_mean data)) =
      fill_missing_with_neighbor_mean data := by
  funext i j
  show (if fill_missing_with_neighbor_mean data i j ≠ 0
        then fill_missing_with_neighbor_mean data i j
        else if upNbr (fill_missing_with_neighbor_mean data) i j ≠ 0
        then upNbr (fill_missing_with_neighbor_mean data) i j
        else if downNbr (fill_missing_with_neighbor_mean data) i j ≠ 0
        then downNbr (fill_missing_with_neighbor_mean data) i j
        else if leftNbr (fill_missing_with_neighbor_mean data) i j ≠ 0
        then leftNbr (fill_missing_with_neighbor_mean data) i j
        else if rightNbr (fill_missing_with_neighbor_mean data) i j ≠ 0
        then rightNbr (fill_missing_with_neighbor_mean data) i j
        else 0) = fill_missing_with_neighbor_mean data i j
  by_cases hz : fill_missing_with_neighbor_mean data i j = 0
  · obtain ⟨hu, hd, hl, hr⟩ := H i j hz
    rw [if_neg (not_not_intro hz), if_neg (not_not_intro hu),
      if_neg (not_not_intro hd), if_neg (not_not_intro hl),
      if_neg (not_not_intro hr)]
    exact hz.symm
  · rw [if_pos hz]

/-- Witness for C5's corrected theorem: on the constant-5 tile no pixel is
missing, so the stability hypothesis holds vacuously and filling twice
equals filling once. -/
theorem fill_idempotent_of_stable_witness :
    fill_missing_with_neighbor_mean (toPx (fill_missing_with_neighbor_mean constFive)) =
      fill_missing_with_neighbor_mean constFive :=
  fill_idempotent_of_stable constFive (by
    intro i j h
    rw [show fill_missing_with_neighbor_mean constFive i j = 5 from by
      norm_num [fill_missing_with_neighbor_mean, constFive, Px.denan]] at h
    norm_num at h)

set_option maxRecDepth 8000 in
/-- Helper: in `nanRowsTile` the non-NaN samples are exactly the 253 * 256
samples outside the first three rows. -/
lemma count_valid_nanRowsTile : count_valid nanRowsTile = 64768 := by
  unfold count_valid
  rw [Finset.filter_congr (q := fun p : Fin 256 × Fin 256 => 3 ≤ p.1.val)
    (fun p _ => by
      by_cases h : p.1.val ≤ 2 <;>
        simp [nanRowsTile, Px.isnan, h, eq_iff_iff] <;> omega)]
  rw [← Finset.univ_product_univ,
    Finset.filter_product_left (p := fun i : Fin 256 => 3 ≤ i.val), Finset.card_product]
  rw [show (Finset.univ.filter (fun i : Fin 256 => 3 ≤ i.val)).card = 253 from by decide]
  rw [Finset.card_univ, Fintype.card_fin]

unseal Rat.mul Rat.add Rat.sub Rat.inv Rat.ofScientific in
/-- C2 counterexample: in `nanRowsTile`, pixel (1,5) is missing with no
valid 4-neighbour, yet the tile is written (98.8% non-NaN coverage, not
fully transparent) and that pixel's alpha in the output is 200, not 0: the
gap-fill leaves it at value 0 and the colormap treats 0 as a valid sample
of the first pm25 segment. -/
theorem C2_cex :
    no_valid_after_fill nanRowsTile 1 5 ∧
    generate_tile pm25_color_breaks pm25_colors nanRowsTile ≠ none ∧
    alphaOf (apply_pm25_colormap pm25_color_breaks pm25_colors
      (toPx (fill_missing_with_neighbor_mean nanRowsTile)) 1 5) = 200 := by
  refine ⟨by unfold no_valid_after_fill; decide, ?_, by decide⟩
  unfold generate_tile
  rw [if_neg, if_neg]
  · simp
  · intro hall
    have h100 := hall 100 0
    revert h100
    decide
  · rw [valid_ratio, count_valid_nanRowsTile]
    norm_num

unseal Rat.mul Rat.add Rat.sub Rat.inv Rat.ofScientific in
/-- C2 (corrected): a pixel with no underlying valid data after gap-filling
is NOT transparent in a written pm25 tile: the fill leaves it at value 0
and the colormap paints it with the first breakpoint colour
`[0, 255, 0, 200]` (alpha 200), because the first pm25 threshold is 0 and
zeros count as valid samples. -/
theorem unfilled_pixel_gets_first_color (data : Grid256) (i j : Fin 256)
    (h : no_valid_after_fill data i j) :
    fill_missing_with_neighbor_mean data i j = 0 ∧
    apply_pm25_colormap pm25_color_breaks pm25_colors
      (toPx (fill_missing_with_neighbor_mean data)) i j = [0, 255, 0, 200] := by
  obtain ⟨h0, hu, hd, hl, hr⟩ := h
  have hf : fill_missing_with_neighbor_mean data i j = 0 := by
    show (if (data i j).denan ≠ 0 then (data i j).denan
          else if upNbr (fun a b => (data a b).denan) i j ≠ 0
          then upNbr (fun a b => (data a b).denan) i j
          else if downNbr (fun a b => (data a b).denan) i j ≠ 0
          then downNbr (fun a b => (data a b).denan) i j
          else if leftNbr (fun a b => (data a b).denan) i j ≠ 0
          then leftNbr (fun a b => (data a b).denan) i j
          else if rightNbr (fun a b => (data a b).denan) i j ≠ 0
          then rightNbr (fun a b => (data a b).denan) i j
          else 0) = 0
    rw [if_neg (not_not_intro h0), if_neg (not_not_intro hu),
      if_neg (not_not_intro hd), if_neg (not_not_intro hl),
      if_neg (not_not_intro hr)]
  refine ⟨hf, ?_⟩
  show colormap_value pm25_color_breaks pm25_colors
    (Px.val (fill_missing_with_neighbor_mean data i j)) = [0, 255, 0, 200]
  rw [hf]
  decide

/-- Witness for C2's corrected theorem at the concrete tile `nanRowsTile`
and its dead pixel (1,5). -/
theorem unfilled_pixel_gets_first_color_witness :
    fill_missing_with_neighbor_mean nanRowsTile 1 5 = 0 ∧
    apply_pm25_colormap pm25_color_breaks pm25_colors
      (toPx (fill_missing_with_neighbor_mean nanRowsTile)) 1 5 = [0, 255, 0, 200] :=
  unfilled_pixel_gets_first_color nanRowsTile 1 5 (by unfold no_valid_after_fill; decide)

/-- Helper: the half-even rounding is within 1/2 of its argument. -/
lemma rndHalfEven_err (q : ℚ) : |(rndHalfEven q : ℚ) - q| ≤ 1/2 := by
  have h0 : (0:ℚ) ≤ q - ⌊q⌋ := sub_nonneg.mpr (Int.floor_le q)
  have h1 : q - ⌊q⌋ < 1 := by
    have := Int.lt_floor_add_one q
    linarith
  simp only [rndHalfEven]
  split_ifs <;> rw [abs_le] <;> push_cast <;> constructor <;> linarith

/-- Helper: correctness (lower bound) of the fuelled base-2 logarithm. -/
lemma log2fuel_le (fuel : ℕ) : ∀ n : ℕ, 1 ≤ n → n ≤ fuel → 2 ^ log2fuel fuel n ≤ n := by
  induction fuel with
  | zero =>
      intro n h1 h2
      simp only [log2fuel]
      omega
  | succ fuel ih =>
      intro n h1 h2
      by_cases h : 2 ≤ n
      · have hrec := ih (n / 2) (by omega) (by omega)
        simp only [log2fuel, if_pos h, pow_succ]
        calc 2 ^ log2fuel fuel (n / 2) * 2 ≤ n / 2 * 2 := Nat.mul_le_mul_right 2 hrec
        _ ≤ n := by omega
      · simp only [log2fuel, if_neg h, pow_zero]
        exact h1

/-- Helper: correctness (upper bound) of the fuelled base-2 ceiling
logarithm, given enough fuel. -/
lemma clog2fuel_ge (fuel : ℕ) : ∀ r : ℚ, r ≤ 2 ^ fuel → r ≤ 2 ^ clog2fuel fuel r := by
  induction fuel with
  | zero =>
      intro r h
      simpa [clog2fuel] using h
  | succ fuel ih =>
      intro r h
      by_cases hr : r ≤ 1
      · simpa [clog2fuel, hr] using hr
      · have h2 : r / 2 ≤ 2 ^ fuel := by
          rw [div_le_iff (by norm_num : (0:ℚ) < 2)]
          calc r ≤ 2 ^ (fuel + 1) := h
          _ = 2 ^ fuel * 2 := by ring
        have hrec := ih (r / 2) h2
        simp only [clog2fuel, if_neg hr, pow_succ]
        rw [div_le_iff (by norm_num : (0:ℚ) < 2)] at hrec
        exact hrec

/-- Helper: the modelled binary32 exponent never overshoots: `2 ^ qexp2 q`
is at most `q` for positive `q`. -/
lemma qexp2_le (q : ℚ) (hq : 0 < q) : (2:ℚ) ^ qexp2 q ≤ q := by
  unfold qexp2
  split_ifs with h1
  · have hm1 : 1 ≤ ⌊q⌋.toNat := by
      have : (1:ℤ) ≤ ⌊q⌋ := Int.le_floor.mpr (by exact_mod_cast h1)
      omega
    have hle := log2fuel_le ⌊q⌋.toNat ⌊q⌋.toNat hm1 le_rfl
    rw [zpow_natCast]
    have hcast1 : ((2:ℚ)) ^ log2fuel ⌊q⌋.toNat ⌊q⌋.toNat ≤ ((⌊q⌋.toNat : ℕ) : ℚ) := by
      exact_mod_cast hle
    have hcast2 : ((⌊q⌋.toNat : ℕ) : ℚ) ≤ q := by
      have h0' : (0:ℤ) ≤ ⌊q⌋ := Int.le_floor.mpr (by exact_mod_cast hq.le)
      have heq : ((⌊q⌋.toNat : ℕ) : ℚ) = ((⌊q⌋ : ℤ) : ℚ) := by
        exact_mod_cast Int.toNat_of_nonneg h0'
      rw [heq]
      exact Int.floor_le q
    linarith
  · have hq1 : q < 1 := lt_of_not_le h1
    have hr1 : 1 < q⁻¹ := one_lt_inv hq hq1
    have hnum : (0:ℤ) < (q⁻¹).num := Rat.num_pos.mpr (by linarith)
    have hfuel : q⁻¹ ≤ 2 ^ (q⁻¹).num.natAbs := by
      have hden : (1:ℚ) ≤ ((q⁻¹).den : ℚ) := by
        exact_mod_cast Nat.one_le_iff_ne_zero.mpr (q⁻¹).den_nz
      have hnum0 : (0:ℚ) ≤ ((q⁻¹).num : ℚ) := by exact_mod_cast hnum.le
      have h1' : q⁻¹ ≤ ((q⁻¹).num : ℚ) := by
        conv_lhs => rw [← Rat.num_div_den q⁻¹]
        calc ((q⁻¹).num : ℚ) / ((q⁻¹).den : ℚ) ≤ ((q⁻¹).num : ℚ) / 1 := by
              apply div_le_div_of_nonneg_left hnum0 one_pos hden
        _ = ((q⁻¹).num : ℚ) := by ring
      have h2' : ((q⁻¹).num.natAbs : ℚ) = ((q⁻¹).num : ℚ) := by
        rw [Int.cast_natAbs]
        exact_mod_cast congrArg (fun z : ℤ => (z : ℚ)) (abs_of_nonneg hnum.le)
      have h3' : ((q⁻¹).num.natAbs : ℚ) ≤ 2 ^ (q⁻¹).num.natAbs := by
        exact_mod_cast (Nat.lt_two_pow _).le
      calc q⁻¹ ≤ ((q⁻¹).num : ℚ) := h1'
      _ = ((q⁻¹).num.natAbs : ℚ) := h2'.symm
      _ ≤ 2 ^ (q⁻¹).num.natAbs := h3'
    have hc := clog2fuel_ge _ _ hfuel
    rw [zpow_neg, zpow_natCast]
    exact inv_le_of_inv_le hq hc

/-- Helper: relative error bound of the binary32 rounding model: for
nonnegative `q`, the rounding error is at most `q / 2^24` (half an ulp at
24 significand bits). -/
lemma fl32_err (q : ℚ) (hq : 0 ≤ q) : |fl32 q - q| ≤ q / 16777216 := by
  rcases eq_or_lt_of_le hq with h | h
  · simp [fl32, ← h]
  · have hne : q ≠ 0 := ne_of_gt h
    unfold fl32 fl32pos
    rw [if_neg hne, if_pos h]
    set e := qexp2 q with he_def
    have h2ne : (2:ℚ) ≠ 0 := by norm_num
    have hsplit : q = q * 2 ^ (23 - e) * 2 ^ (e - 23) := by
      rw [mul_assoc, ← zpow_add₀ h2ne]
      norm_num
    have hpow_pos : (0:ℚ) < 2 ^ (e - 23) := by positivity
    have herr := rndHalfEven_err (q * 2 ^ (23 - e))
    have key : (rndHalfEven (q * 2 ^ (23 - e)) : ℚ) * 2 ^ (e - 23) - q
        = ((rndHalfEven (q * 2 ^ (23 - e)) : ℚ) - q * 2 ^ (23 - e)) * 2 ^ (e - 23) := by
      rw [sub_mul, ← hsplit]
    rw [key, abs_mul, abs_of_pos hpow_pos]
    have step2 : (1/2 : ℚ) * 2 ^ (e - 23) = 2 ^ e / 16777216 := by
      have e1 : (2:ℚ) ^ (e - 23) = 2 ^ e * 2 ^ (-(23:ℤ)) := by
        rw [← zpow_add₀ h2ne]
        ring_nf
      rw [e1, show (2:ℚ) ^ (-(23:ℤ)) = 1 / 8388608 from by norm_num]
      ring
    have step3 : (2:ℚ) ^ e / 16777216 ≤ q / 16777216 := by
      have := qexp2_le q h
      gcongr
    calc |(rndHalfEven (q * 2 ^ (23 - e)) : ℚ) - q * 2 ^ (23 - e)| * 2 ^ (e - 23)
        ≤ (1/2) * 2 ^ (e - 23) := mul_le_mul_of_nonneg_right herr hpow_pos.le
    _ = 2 ^ e / 16777216 := step2
    _ ≤ q / 16777216 := step3

/-- C9 (corrected): for every interpolation factor `t` in `[0, 1]`, the
float32 computation `(1-t)*200 + t*200` truncated to uint8 yields 199 or
200 — not always exactly 200. -/
theorem alpha_interp_f32_199_or_200 (t : ℚ) (h0 : 0 ≤ t) (h1 : t ≤ 1) :
    alpha_interp_f32 t = 199 ∨ alpha_interp_f32 t = 200 := by
  unfold alpha_interp_f32
  have hB : (0:ℚ) < 16777216 := by norm_num
  have hu := fl32_err (1 - t) (by linarith)
  set u := fl32 (1 - t) with hu_def
  obtain ⟨hu1, hu2⟩ := abs_le.mp hu
  have haux : (1 - t) / 16777216 ≤ 1 - t := div_le_self (by linarith) (by norm_num)
  have hu0 : 0 ≤ u := by linarith
  have huhi : u ≤ 2 := by
    have : (1 - t) / 16777216 ≤ 1 / 16777216 := by gcongr <;> linarith
    have h1t : 1 - t ≤ 1 := by linarith
    linarith [show (1:ℚ) / 16777216 ≤ 1 by norm_num]
  have hp := fl32_err (u * 200) (by positivity)
  set p := fl32 (u * 200) with hp_def
  obtain ⟨hp1, hp2⟩ := abs_le.mp hp
  have hq := fl32_err (t * 200) (by positivity)
  set qq := fl32 (t * 200) with hq_def
  obtain ⟨hq1, hq2⟩ := abs_le.mp hq
  have hub1 : u * 200 / 16777216 ≤ 400 / 16777216 := by gcongr <;> linarith
  have hub2 : t * 200 / 16777216 ≤ 200 / 16777216 := by gcongr <;> linarith
  have hub3 : (1 - t) / 16777216 ≤ 1 / 16777216 := by gcongr <;> linarith
  have hsum_lo : 200 - 801 / 16777216 ≤ p + qq := by nlinarith
  have hsum_hi : p + qq ≤ 200 + 801 / 16777216 := by nlinarith
  have hppq : (0:ℚ) ≤ p + qq := by
    have : (801:ℚ) / 16777216 ≤ 1 := by norm_num
    linarith
  have hs := fl32_err (p + qq) hppq
  set s := fl32 (p + qq) with hs_def
  obtain ⟨hs1, hs2⟩ := abs_le.mp hs
  have hsb : (p + qq) / 16777216 ≤ 201 / 16777216 := by
    gcongr
    have : (801:ℚ) / 16777216 ≤ 1 := by norm_num
    linarith
  have hsmall : (801:ℚ) / 16777216 + 201 / 16777216 < 1/10 := by norm_num
  have hfin_lo : (1999:ℚ)/10 < s := by linarith
  have hfin_hi : s < (2001:ℚ)/10 := by linarith
  unfold npUint8
  rw [if_pos (by linarith : (0:ℚ) ≤ s)]
  have hfl : ⌊s⌋ = 199 ∨ ⌊s⌋ = 200 := by
    have hl : (199:ℤ) ≤ ⌊s⌋ := Int.le_floor.mpr (by push_cast; linarith)
    have hh : ⌊s⌋ < 201 := Int.floor_lt.mpr (by push_cast; linarith)
    omega
  rcases hfl with h | h
  · left
    rw [h]
    decide
  · right
    rw [h]
    decide

/-- Witness for C9's corrected theorem at the concrete factor 1/2. -/
theorem alpha_interp_f32_199_or_200_witness :
    alpha_interp_f32 (1/2) = 199 ∨ alpha_interp_f32 (1/2) = 200 :=
  alpha_interp_f32_199_or_200 (1/2) (by norm_num) (by norm_num)

unseal Rat.mul Rat.add Rat.sub Rat.inv Rat.ofScientific in
/-- C9 counterexample: the binary32 value `t0 = 10737503/2^25 ≈ 0.32` lies
in `[0, 1]`, yet the float32 interpolation of the alpha channel evaluates
to `200 - 2^-16`, which truncates to 199, not 200. -/
theorem C9_cex :
    fl32 t0f32 = t0f32 ∧ (0:ℚ) ≤ t0f32 ∧ t0f32 ≤ 1 ∧
    alpha_interp_f32 t0f32 = 199 := by
  constructor
  · decide
  constructor
  · decide
  constructor
  · decide
  · decide

/-- Helper: walking the bump pass from any starting point yields a strictly
increasing chain. -/
lemma bumpGo_chain (xs : List ℚ) : ∀ prev : ℚ, List.Chain' (· < ·) (prev :: bumpGo prev xs) := by
  induction xs with
  | nil =>
      intro prev
      simp [bumpGo]
  | cons x xs ih =>
      intro prev
      simp only [bumpGo]
      by_cases h : x ≤ prev
      · rw [if_pos h, List.chain'_cons]
        exact ⟨by linarith, ih _⟩
      · rw [if_neg h, List.chain'_cons]
        exact ⟨lt_of_not_le h, ih _⟩

/-- Helper: the strictness pass of the calibration always returns a
strictly increasing list, whatever its input. -/
lemma bump_increasing_chain (l : List ℚ) : List.Chain' (· < ·) (bump_increasing l) := by
  cases l with
  | nil => simp [bump_increasing]
  | cons b bs =>
      simp only [bump_increasing]
      exact bumpGo_chain bs b

/-- Helper: for a positive value at most 10, the nice-value ladder answers
10 (its first entry). -/
lemma nice_of_le_ten (q : ℚ) (h0 : 0 < q) (h10 : q ≤ 10) :
    round_up_to_nice_value q = 10 := by
  unfold round_up_to_nice_value niceLadder
  rw [if_neg (not_le.mpr h0)]
  simp [List.find?, h10]

/-- Helper: the code's normalisation of `data_max` (replace a nonpositive
value by 1.0) and the spec's `max(data_max, 1.0)` have the same nice-value
ceiling. -/
lemma nice_of_norm (q : ℚ) :
    round_up_to_nice_value (if q ≤ 0 then 1 else q) = round_up_to_nice_value (max q 1) := by
  rcases le_or_lt q 0 with h | h
  · rw [if_pos h, max_eq_right (h.trans zero_le_one)]
  · rw [if_neg (not_le.mpr h)]
    rcases le_or_lt q 1 with h1 | h1
    · rw [max_eq_right h1, nice_of_le_ten q h (by linarith),
        nice_of_le_ten 1 one_pos (by norm_num)]
    · rw [max_eq_left h1.le]

/-- C6 (confirmed): in dynamic mode (pm25 or precipitation layer, no legacy
flag, no override, data range present) with at least two classes, the
calibrated breaks are always strictly increasing — whatever `data_max` is,
including NaN and infinities — and for a finite `data_max` they equal the
spec's formula: `num_classes` linearly spaced values from 0 to the nice
ceiling of `max(data_max, 1.0)`, rounded to 2 decimals, with non-increasing
steps bumped by +0.01. -/
theorem dynamic_thresholds_calibration (layer_name : String)
    (dmin dmax : PyFloat) (num_classes : ℕ) (color_breaks : List ℚ)
    (hlayer : layer_name = "pm25" ∨ layer_name = "precipitation")
    (hn : 2 ≤ num_classes) :
    List.Chain' (· < ·)
      (maybe_prepare_dynamic_thresholds layer_name false none
        (some dmin) (some dmax) num_classes color_breaks).1 ∧
    ∀ q : ℚ, dmax = PyFloat.val q →
      (maybe_prepare_dynamic_thresholds layer_name false none
        (some dmin) (some dmax) num_classes color_breaks).1 =
        spec_dynamic_thresholds q num_classes := by
  cases dmax with
  | val q0 =>
      have hpos : (0:ℚ) < if q0 ≤ 0 then 1 else q0 := by
        by_cases h : q0 ≤ 0
        · rw [if_pos h]
          norm_num
        · rw [if_neg h]
          exact lt_of_not_le h
      have hres : (maybe_prepare_dynamic_thresholds layer_name false none
          (some dmin) (some (PyFloat.val q0)) num_classes color_breaks).1 =
          bump_increasing ((linspace 0 (round_up_to_nice_value
            (if q0 ≤ 0 then 1 else q0)) num_classes).map round2) := by
        unfold maybe_prepare_dynamic_thresholds
        rw [if_neg (not_not_intro hlayer)]
        simp only [Bool.false_eq_true, if_false]
        rw [if_neg (by simp), if_neg (by omega : ¬ num_classes < 2)]
        simp only [if_neg (not_le.mpr hpos)]
      refine ⟨by rw [hres]; exact bump_increasing_chain _, ?_⟩
      intro q hq
      injection hq with h
      subst h
      rw [hres]
      unfold spec_dynamic_thresholds
      rw [nice_of_norm]
  | nan =>
      have hres : (maybe_prepare_dynamic_thresholds layer_name false none
          (some dmin) (some PyFloat.nan) num_classes color_breaks).1 =
          bump_increasing ((linspace 0 (round_up_to_nice_value 1)
            num_classes).map round2) := by
        unfold maybe_prepare_dynamic_thresholds
        rw [if_neg (not_not_intro hlayer)]
        simp only [Bool.false_eq_true, if_false]
        rw [if_neg (by simp), if_neg (by omega : ¬ num_classes < 2)]
        simp only [if_neg (by norm_num : ¬ (1:ℚ) ≤ 0)]
      refine ⟨by rw [hres]; exact bump_increasing_chain _, ?_⟩
      intro q hq
      exact absurd hq (by simp)
  | inf =>
      have hres : (maybe_prepare_dynamic_thresholds layer_name false none
          (some dmin) (some PyFloat.inf) num_classes color_breaks).1 =
          bump_increasing ((linspace 0 (round_up_to_nice_value 1)
            num_classes).map round2) := by
        unfold maybe_prepare_dynamic_thresholds
        rw [if_neg (not_not_intro hlayer)]
        simp only [Bool.false_eq_true, if_false]
        rw [if_neg (by simp), if_neg (by omega : ¬ num_classes < 2)]
        simp only [if_neg (by norm_num : ¬ (1:ℚ) ≤ 0)]
      refine ⟨by rw [hres]; exact bump_increasing_chain _, ?_⟩
      intro q hq
      exact absurd hq (by simp)
  | ninf =>
      have hres : (maybe_prepare_dynamic_thresholds layer_name false none
          (some dmin) (some PyFloat.ninf) num_classes color_breaks).1 =
          bump_increasing ((linspace 0 (round_up_to_nice_value 1)
            num_classes).map round2) := by
        unfold maybe_prepare_dynamic_thresholds
        rw [if_neg (not_not_intro hlayer)]
        simp only [Bool.false_eq_true, if_false]
        rw [if_neg (by simp), if_neg (by omega : ¬ num_classes < 2)]
        simp only [if_neg (by norm_num : ¬ (1:ℚ) ≤ 0)]
      refine ⟨by rw [hres]; exact bump_increasing_chain _, ?_⟩
      intro q hq
      exact absurd hq (by simp)

/-- Witness for C6's theorem at the pm25 layer, `data_max = 42.3`, five
classes: the calibrated breaks are `[0, 12.5, 25, 37.5, 50]`. -/
theorem dynamic_thresholds_calibration_witness :
    List.Chain' (· < ·)
      (maybe_prepare_dynamic_thresholds "pm25" false none
        (some (PyFloat.val 0)) (some (PyFloat.val (423/10))) 5 pm25_color_breaks).1 ∧
    (maybe_prepare_dynamic_thresholds "pm25" false none
      (some (PyFloat.val 0)) (some (PyFloat.val (423/10))) 5 pm25_color_breaks).1 =
      spec_dynamic_thresholds (423/10) 5 :=
  ⟨(dynamic_thresholds_calibration "pm25" (PyFloat.val 0) (PyFloat.val (423/10)) 5
      pm25_color_breaks (Or.inl rfl) (by norm_num)).1,
   (dynamic_thresholds_calibration "pm25" (PyFloat.val 0) (PyFloat.val (423/10)) 5
      pm25_color_breaks (Or.inl rfl) (by norm_num)).2 (423/10) rfl⟩

/-- Helper: with duplicate-free keys, an association list determines the
value at a key uniquely. -/
lemma assoc_value_unique {α : Type} :
    ∀ (l : List ((ℤ × ℤ) × Option α)) (k : ℤ × ℤ) (a b : Option α),
      (l.map Prod.fst).Nodup → (k, a) ∈ l → (k, b) ∈ l → a = b := by
  intro l
  induction l with
  | nil =>
      intro k a b _ h
      simp at h
  | cons e l ih =>
      intro k a b hnd ha hb
      simp only [List.map_cons, List.nodup_cons] at hnd
      rcases List.mem_cons.mp ha with ha' | ha' <;> rcases List.mem_cons.mp hb with hb' | hb'
      · have h := ha'.trans hb'.symm
        exact (Prod.ext_iff.mp h).2
      · exfalso
        apply hnd.1
        rw [← ha']
        exact List.mem_map.mpr ⟨(k, b), hb', rfl⟩
      · exfalso
        apply hnd.1
        rw [← hb']
        exact List.mem_map.mpr ⟨(k, a), ha', rfl⟩
      · exact ih k a b hnd.2 ha' hb'

/-- Helper: every source entry that decodes contributes its image to each
of its four children in the write list. -/
lemma child_mem_upsample_writes {α : Type} :
    ∀ (entries : List ((ℤ × ℤ) × Option α)) (x y : ℤ) (im : α),
      ((x, y), some im) ∈ entries →
      ∀ c : ℤ × ℤ,
        (c = (2*x, 2*y) ∨ c = (2*x, 2*y+1) ∨ c = (2*x+1, 2*y) ∨ c = (2*x+1, 2*y+1)) →
        (c, im) ∈ upsample_writes entries := by
  intro entries
  induction entries with
  | nil =>
      intro x y im h
      simp at h
  | cons e rest ih =>
      intro x y im hmem c hc
      rcases e with ⟨⟨a, b⟩, img⟩
      rcases List.mem_cons.mp hmem with h | h
      · obtain ⟨h1, h2⟩ := Prod.ext_iff.mp h
        obtain ⟨hx, hy⟩ := Prod.ext_iff.mp h1
        simp only at hx hy h2
        subst hx
        subst hy
        rw [← h2]
        simp only [upsample_writes, List.mem_cons]
        rcases hc with rfl | rfl | rfl | rfl <;> tauto
      · cases img with
        | none =>
            simp only [upsample_writes]
            exact ih x y im h c hc
        | some v =>
            simp only [upsample_writes, List.mem_cons]
            have := ih x y im h c hc
            tauto

/-- Helper: every element of the write list is a child of a decodable
source entry and carries that entry's image. -/
lemma upsample_writes_parent {α : Type} :
    ∀ (entries : List ((ℤ × ℤ) × Option α)) (w : (ℤ × ℤ) × α),
      w ∈ upsample_writes entries →
      ∃ p : ℤ × ℤ, (p, some w.2) ∈ entries ∧
        (w.1.1 = 2*p.1 ∨ w.1.1 = 2*p.1+1) ∧ (w.1.2 = 2*p.2 ∨ w.1.2 = 2*p.2+1) := by
  intro entries
  induction entries with
  | nil =>
      intro w h
      simp [upsample_writes] at h
  | cons e rest ih =>
      intro w hw
      rcases e with ⟨⟨a, b⟩, img⟩
      cases img with
      | none =>
          simp only [upsample_writes] at hw
          obtain ⟨p, hp, hx, hy⟩ := ih w hw
          exact ⟨p, List.mem_cons_of_mem _ hp, hx, hy⟩
      | some v =>
          simp only [upsample_writes, List.mem_cons] at hw
          rcases hw with rfl | rfl | rfl | rfl | hw
          · exact ⟨(a, b), List.mem_cons_self _ _, Or.inl rfl, Or.inl rfl⟩
          · exact ⟨(a, b), List.mem_cons_self _ _, Or.inl rfl, Or.inr rfl⟩
          · exact ⟨(a, b), List.mem_cons_self _ _, Or.inr rfl, Or.inl rfl⟩
          · exact ⟨(a, b), List.mem_cons_self _ _, Or.inr rfl, Or.inr rfl⟩
          · obtain ⟨p, hp, hx, hy⟩ := ih w hw
            exact ⟨p, List.mem_cons_of_mem _ hp, hx, hy⟩

/-- Helper: a location no write targets keeps its old content. -/
lemma apply_writes_not_mem {α : Type} :
    ∀ (ws : List ((ℤ × ℤ) × α)) (dst : ℤ → ℤ → Option α) (cx cy : ℤ),
      (∀ w ∈ ws, ¬ (cx = w.1.1 ∧ cy = w.1.2)) →
      apply_writes dst ws cx cy = dst cx cy := by
  intro ws
  induction ws with
  | nil =>
      intro dst cx cy _
      rfl
  | cons w ws ih =>
      intro dst cx cy h
      simp only [apply_writes]
      rw [ih _ cx cy (fun w' hw' => h w' (List.mem_cons_of_mem _ hw'))]
      rw [if_neg (h w (List.mem_cons_self _ _))]

/-- Helper: a location targeted by writes that all agree on one value ends
holding that value. -/
lemma apply_writes_mem_unique {α : Type} :
    ∀ (ws : List ((ℤ × ℤ) × α)) (dst : ℤ → ℤ → Option α) (cx cy : ℤ) (v : α),
      ((cx, cy), v) ∈ ws → (∀ v' : α, ((cx, cy), v') ∈ ws → v' = v) →
      apply_writes dst ws cx cy = some v := by
  intro ws
  induction ws with
  | nil =>
      intro dst cx cy v h _
      simp at h
  | cons w ws ih =>
      intro dst cx cy v hmem huniq
      simp only [apply_writes]
      by_cases hw : ∃ v' : α, ((cx, cy), v') ∈ ws
      · obtain ⟨v', hv'⟩ := hw
        have hv'v : v' = v := huniq v' (List.mem_cons_of_mem _ hv')
        subst hv'v
        exact ih _ cx cy v' hv' (fun u hu => huniq u (List.mem_cons_of_mem _ hu))
      · push_neg at hw
        have hnot : ∀ w' ∈ ws, ¬ (cx = w'.1.1 ∧ cy = w'.1.2) := by
          rintro w' hw' ⟨hx, hy⟩
          have hform : w' = ((cx, cy), w'.2) := by
            rcases w' with ⟨⟨a, b⟩, u⟩
            simp only at hx hy
            rw [← hx, ← hy]
          rw [hform] at hw'
          exact hw w'.2 hw'
        rw [apply_writes_not_mem ws _ cx cy hnot]
        rcases List.mem_cons.mp hmem with h | h
        · rw [← h]
          simp
        · exact absurd h (hw v)

/-- C10 (confirmed): one `_upsample_step` over a source zoom directory with
duplicate-free tile indices copies each decodable tile image unmodified to
exactly its four child indices `(2x, 2y), (2x, 2y+1), (2x+1, 2y),
(2x+1, 2y+1)` at the next zoom, and leaves every location that is not a
child of a decodable source tile untouched. -/
theorem upsample_step_children {α : Type} (entries : List ((ℤ × ℤ) × Option α))
    (dst : ℤ → ℤ → Option α) (x y : ℤ) (im : α)
    (hnd : (entries.map Prod.fst).Nodup)
    (hmem : ((x, y), some im) ∈ entries) :
    (upsample_step entries dst (2*x) (2*y) = some im ∧
     upsample_step entries dst (2*x) (2*y+1) = some im ∧
     upsample_step entries dst (2*x+1) (2*y) = some im ∧
     upsample_step entries dst (2*x+1) (2*y+1) = some im) ∧
    ∀ cx cy : ℤ,
      (∀ (p : ℤ × ℤ) (v : α), (p, some v) ∈ entries →
        ¬ ((cx = 2*p.1 ∨ cx = 2*p.1+1) ∧ (cy = 2*p.2 ∨ cy = 2*p.2+1))) →
      upsample_step entries dst cx cy = dst cx cy := by
  have huniq : ∀ (cx cy : ℤ),
      (cx = 2*x ∨ cx = 2*x+1) → (cy = 2*y ∨ cy = 2*y+1) →
      ∀ v' : α, ((cx, cy), v') ∈ upsample_writes entries → v' = im := by
    intro cx cy hcx hcy v' hv'
    obtain ⟨p, hp, hx, hy⟩ := upsample_writes_parent entries ((cx, cy), v') hv'
    simp only at hx hy
    have hpx : p.1 = x := by omega
    have hpy : p.2 = y := by omega
    have hpeq : p = (x, y) := Prod.ext hpx hpy
    rw [hpeq] at hp
    have := assoc_value_unique entries (x, y) (some v') (some im) hnd hp hmem
    exact Option.some.injEq .. |>.mp this
  refine ⟨⟨?_, ?_, ?_, ?_⟩, ?_⟩
  · exact apply_writes_mem_unique _ dst _ _ im
      (child_mem_upsample_writes entries x y im hmem _ (by tauto))
      (huniq _ _ (Or.inl rfl) (Or.inl rfl))
  · exact apply_writes_mem_unique _ dst _ _ im
      (child_mem_upsample_writes entries x y im hmem _ (by tauto))
      (huniq _ _ (Or.inl rfl) (Or.inr rfl))
  · exact apply_writes_mem_unique _ dst _ _ im
      (child_mem_upsample_writes entries x y im hmem _ (by tauto))
      (huniq _ _ (Or.inr rfl) (Or.inl rfl))
  · exact apply_writes_mem_unique _ dst _ _ im
      (child_mem_upsample_writes entries x y im hmem _ (by tauto))
      (huniq _ _ (Or.inr rfl) (Or.inr rfl))
  · intro cx cy h
    apply apply_writes_not_mem
    rintro w hw ⟨hwx, hwy⟩
    obtain ⟨p, hp, hx, hy⟩ := upsample_writes_parent entries w hw
    exact h p w.2 hp ⟨by omega, by omega⟩

/-- Witness for C10's theorem: a single source tile (3,5) with image 7 is
copied to child (6,10). -/
theorem upsample_step_children_witness :
    upsample_step [((3, 5), some 7)] (fun _ _ => (none : Option ℕ)) 6 10 = some 7 := by
  have h := (upsample_step_children [((3, 5), some (7:ℕ))] (fun _ _ => none) 3 5 7
    (by simp) (by simp)).1.1
  norm_num at h
  exact h

/-- Helper: a zoom level whose extraction always fails writes nothing. -/
lemma tiles_zero_of_extract_none (bounds : ℝ × ℝ × ℝ × ℝ)
    (color_breaks : List ℚ) (colors : List (List ℕ))
    (output_dir layer_name : String) (zoom : ℕ) :
    generate_tiles_for_zoom bounds (fun _ _ _ => none) color_breaks colors
      output_dir layer_name zoom = (0, []) := by
  unfold generate_tiles_for_zoom
  have hnil : ∀ (xs ys : List ℤ),
      ((xs.flatMap (fun x => ys.map (fun y =>
        tile_task (fun _ _ _ => none) color_breaks colors output_dir layer_name
          zoom x y))).filterMap id) = [] := by
    intro xs ys
    rw [List.filterMap_eq_nil]
    intro a ha
    simp only [List.mem_flatMap, List.mem_map] at ha
    obtain ⟨x, _, y, _, rfl⟩ := ha
    rfl
  simp only [hnil]
  rfl

/-- Helper: a run whose extraction always fails (raster outside the covered
region) succeeds with zero tiles and writes only metadata.json. -/
lemma generate_all_tiles_extract_none (bounds : ℝ × ℝ × ℝ × ℝ)
    (data_min data_max : PyFloat) (layer_name : String) (legacy : Bool)
    (ov : Option (List ℚ)) (colors : List (List ℕ)) (color_breaks : List ℚ)
    (zoom_levels : List ℕ) (output_dir : String) :
    generate_all_tiles true bounds (fun _ _ _ => none) data_min data_max
      layer_name legacy ov colors color_breaks zoom_levels output_dir =
      Except.ok (0, [metadata_path output_dir layer_name]) := by
  unfold generate_all_tiles
  rw [if_neg (by simp)]
  dsimp only
  rw [List.map_congr_left (fun z _ => tiles_zero_of_extract_none bounds _ colors
    output_dir layer_name z)]
  have h1 : ((zoom_levels.map fun _ => ((0:ℕ), ([] : List String))).map
      (fun r => r.1)).sum = 0 := by
    apply List.sum_eq_zero
    intro a ha
    simp only [List.map_map, List.mem_map] at ha
    obtain ⟨z, _, rfl⟩ := ha
    rfl
  have h2 : ((zoom_levels.map fun _ => ((0:ℕ), ([] : List String))).map
      (fun r => r.2)).flatten = [] := by
    induction zoom_levels with
    | nil => rfl
    | cons z zs ih =>
        simpa using ih
  rw [h1, h2]
  rfl

/-- C4 counterexample: a run over a raster whose every tile window is empty
(extraction always `none`) returns tile count 0 without raising — but it
does write a file: `tiles/pm25/metadata.json`.  The claim's "writes no
files at all — in particular, no metadata.json" is false. -/
theorem C4_cex :
    generate_all_tiles true ((0:ℝ), (0:ℝ), (0:ℝ), (0:ℝ)) (fun _ _ _ => none)
      (PyFloat.val 0) (PyFloat.val 0) "pm25" false none pm25_colors
      pm25_color_breaks [6, 7, 8, 9, 10, 11, 12, 13] "tiles" =
      Except.ok (0, [metadata_path "tiles" "pm25"]) ∧
    metadata_path "tiles" "pm25" = "tiles/pm25/metadata.json" := by
  constructor
  · exact generate_all_tiles_extract_none _ _ _ _ _ _ _ _ _ _
  · rfl

/-- C4 (corrected): a run in which no tile is produced (every extraction
yields `none`) returns tile count 0 and raises nothing, and writes no tile
file — but `metadata.json` is still written (metadata is written for every
run that does not raise). -/
theorem generate_all_zero_tiles_writes_metadata (bounds : ℝ × ℝ × ℝ × ℝ)
    (extract : ℕ → ℤ → ℤ → Option Grid256) (data_min data_max : PyFloat)
    (layer_name : String) (legacy : Bool) (ov : Option (List ℚ))
    (colors : List (List ℕ)) (color_breaks : List ℚ) (zoom_levels : List ℕ)
    (output_dir : String)
    (hext : ∀ z x y, extract z x y = none) :
    generate_all_tiles true bounds extract data_min data_max layer_name legacy
      ov colors color_breaks zoom_levels output_dir =
      Except.ok (0, [metadata_path output_dir layer_name]) := by
  have hfun : extract = fun _ _ _ => none :=
    funext fun z => funext fun x => funext fun y => hext z x y
  rw [hfun]
  exact generate_all_tiles_extract_none _ _ _ _ _ _ _ _ _ _

/-- Witness for C4's corrected theorem at a concrete zero-tile run. -/
theorem generate_all_zero_tiles_writes_metadata_witness :
    generate_all_tiles true ((0:ℝ), (0:ℝ), (0:ℝ), (0:ℝ)) (fun _ _ _ => none)
      (PyFloat.val 0) (PyFloat.val 0) "pm25" false none pm25_colors
      pm25_color_breaks [6] "tiles" =
      Except.ok (0, [metadata_path "tiles" "pm25"]) :=
  generate_all_zero_tiles_writes_metadata _ _ _ _ _ _ _ _ _ _ _
    (fun _ _ _ => rfl)

/-- C7 (confirmed): tile-math round trip: for a tile index `(x, y)` at zoom
`z` within range and any geographic point strictly inside the tile's
bounding box — the box spanned by `num2deg x y z` (northwest corner) and
`num2deg (x+1) (y+1) z` — `deg2num` returns exactly `(x, y)`. -/
theorem deg2num_num2deg_roundtrip (zoom : ℕ) (x y : ℤ) (lat lon : ℝ)
    (hx0 : 0 ≤ x) (hx1 : x < 2 ^ zoom) (hy0 : 0 ≤ y) (hy1 : y < 2 ^ zoom)
    (hlon1 : (num2deg x y zoom).2 < lon)
    (hlon2 : lon < (num2deg (x + 1) (y + 1) zoom).2)
    (hlat1 : (num2deg (x + 1) (y + 1) zoom).1 < lat)
    (hlat2 : lat < (num2deg x y zoom).1) :
    deg2num lat lon zoom = (x, y) := by
  have hpi : (0:ℝ) < Real.pi := Real.pi_pos
  simp only [num2deg] at hlon1 hlon2 hlat1 hlat2
  push_cast at hlon1 hlon2 hlat1 hlat2
  simp only [deg2num]
  rw [Prod.mk.injEq]
  set n : ℝ := (2:ℝ) ^ zoom with hn_def
  have hn : (0:ℝ) < n := by positivity
  have h360 : (0:ℝ) < n / 360 := by positivity
  have hx0' : (0:ℝ) ≤ (x:ℝ) := by exact_mod_cast hx0
  have hy0' : (0:ℝ) ≤ (y:ℝ) := by exact_mod_cast hy0
  -- longitude part
  have hax : (x:ℝ) < (lon + 180) / 360 * n := by
    have h' : (x:ℝ) / n * 360 < lon + 180 := by linarith
    calc (x:ℝ) = ((x:ℝ) / n * 360) * (n / 360) := by field_simp
    _ < (lon + 180) * (n / 360) := mul_lt_mul_of_pos_right h' h360
    _ = (lon + 180) / 360 * n := by ring
  have hbx : (lon + 180) / 360 * n < (x:ℝ) + 1 := by
    have h' : lon + 180 < ((x:ℝ) + 1) / n * 360 := by linarith
    calc (lon + 180) / 360 * n = (lon + 180) * (n / 360) := by ring
    _ < (((x:ℝ) + 1) / n * 360) * (n / 360) := mul_lt_mul_of_pos_right h' h360
    _ = (x:ℝ) + 1 := by field_simp
  -- latitude part
  have hconv : ∀ z : ℝ, z * (180 / Real.pi) * (Real.pi / 180) = z := by
    intro z
    field_simp
  have hd : (0:ℝ) < Real.pi / 180 := by positivity
  have hr2 : Real.arctan (Real.sinh (Real.pi * (1 - 2 * ((y:ℝ) + 1) / n)))
      < lat * (Real.pi / 180) := by
    have := mul_lt_mul_of_pos_right hlat1 hd
    rwa [hconv] at this
  have hr1 : lat * (Real.pi / 180)
      < Real.arctan (Real.sinh (Real.pi * (1 - 2 * (y:ℝ) / n))) := by
    have := mul_lt_mul_of_pos_right hlat2 hd
    rwa [hconv] at this
  have hL1 : -(Real.pi / 2) < lat * (Real.pi / 180) :=
    lt_trans (Real.neg_pi_div_two_lt_arctan _) hr2
  have hL2 : lat * (Real.pi / 180) < Real.pi / 2 :=
    lt_trans hr1 (Real.arctan_lt_pi_div_two _)
  have ht1 : Real.sinh (Real.pi * (1 - 2 * ((y:ℝ) + 1) / n))
      < Real.tan (lat * (Real.pi / 180)) := by
    have := Real.tan_lt_tan_of_lt_of_lt_pi_div_two
      (Real.neg_pi_div_two_lt_arctan _) hL2 hr2
    rwa [Real.tan_arctan] at this
  have ht2 : Real.tan (lat * (Real.pi / 180))
      < Real.sinh (Real.pi * (1 - 2 * (y:ℝ) / n)) := by
    have := Real.tan_lt_tan_of_lt_of_lt_pi_div_two hL1
      (Real.arctan_lt_pi_div_two _) hr1
    rwa [Real.tan_arctan] at this
  have hs1 : Real.pi * (1 - 2 * ((y:ℝ) + 1) / n)
      < Real.arsinh (Real.tan (lat * (Real.pi / 180))) := by
    have := Real.arsinh_lt_arsinh.mpr ht1
    rwa [Real.arsinh_sinh] at this
  have hs2 : Real.arsinh (Real.tan (lat * (Real.pi / 180)))
      < Real.pi * (1 - 2 * (y:ℝ) / n) := by
    have := Real.arsinh_lt_arsinh.mpr ht2
    rwa [Real.arsinh_sinh] at this
  set T := Real.arsinh (Real.tan (lat * (Real.pi / 180))) with hT_def
  have hk2 : T / Real.pi < 1 - 2 * (y:ℝ) / n := by
    rw [div_lt_iff hpi]
    nlinarith [hs2]
  have hk1 : 1 - 2 * ((y:ℝ) + 1) / n < T / Real.pi := by
    rw [lt_div_iff hpi]
    nlinarith [hs1]
  have hne : n ≠ 0 := ne_of_gt hn
  have hgoal_eq : (1 - T / Real.pi) / 2 * n = n / 2 - T / Real.pi * (n / 2) := by
    ring
  have hky : (y:ℝ) < (1 - T / Real.pi) / 2 * n := by
    have hmul := mul_lt_mul_of_pos_right hk2 (show (0:ℝ) < n / 2 by positivity)
    have hleft : (1 - 2 * (y:ℝ) / n) * (n / 2) = n / 2 - (y:ℝ) := by
      field_simp
    rw [hleft] at hmul
    rw [hgoal_eq]
    linarith
  have hky' : (1 - T / Real.pi) / 2 * n < (y:ℝ) + 1 := by
    have hmul := mul_lt_mul_of_pos_right hk1 (show (0:ℝ) < n / 2 by positivity)
    have hleft : (1 - 2 * ((y:ℝ) + 1) / n) * (n / 2) = n / 2 - ((y:ℝ) + 1) := by
      field_simp
    rw [hleft] at hmul
    rw [hgoal_eq]
    linarith
  constructor
  · unfold pyInt
    rw [if_pos (by linarith : (0:ℝ) ≤ (lon + 180) / 360 * n)]
    rw [Int.floor_eq_iff]
    constructor
    · exact hax.le
    · push_cast
      exact hbx
  · unfold pyInt
    rw [if_pos (by linarith : (0:ℝ) ≤ (1 - T / Real.pi) / 2 * n)]
    rw [Int.floor_eq_iff]
    constructor
    · exact hky.le
    · push_cast
      exact hky'

/-- Helper: the northwest-corner latitude of tile (0,0) at zoom 0 is
positive. -/
lemma arctan_sinh_pi_pos : (0:ℝ) < Real.arctan (Real.sinh Real.pi) * (180 / Real.pi) := by
  have hpi : (0:ℝ) < Real.pi := Real.pi_pos
  have hs : (0:ℝ) < Real.sinh Real.pi := Real.sinh_pos_iff.mpr hpi
  have ha : (0:ℝ) < Real.arctan (Real.sinh Real.pi) := by
    calc (0:ℝ) = Real.arctan 0 := Real.arctan_zero.symm
    _ < Real.arctan (Real.sinh Real.pi) := Real.arctan_strictMono hs
  exact mul_pos ha (by positivity)

/-- Witness for C7's theorem: at zoom 0, the point (lat 0, lon 0) lies
strictly inside tile (0, 0)'s box and maps back to it. -/
theorem deg2num_num2deg_roundtrip_witness : deg2num 0 0 0 = (0, 0) := by
  apply deg2num_num2deg_roundtrip 0 0 0 0 0 le_rfl (by norm_num) le_rfl (by norm_num)
  · simp only [num2deg]
    push_cast
    norm_num
  · simp only [num2deg]
    push_cast
    norm_num
  · simp only [num2deg]
    push_cast
    norm_num
    exact arctan_sinh_pi_pos
  · simp only [num2deg]
    push_cast
    norm_num
    exact arctan_sinh_pi_pos

end TileGen
